import Mathlib

/-!
# Verification of the kline-fetch pipeline (`fetch_kline.py`)

Shallow embedding of the data model and operations of `fetch_kline.py`:

* Python strings are embedded as `List Char`; a pandas `DataFrame` of kline
  bars is a `List Row`, where the `date` column (after `pd.to_datetime`) is
  an `Option ℕ` (day ordinal, `none` = `NaT`) and the numeric columns are
  `Option ℚ` (`none` = `NaN`, the sentinel produced by
  `pd.to_numeric(..., errors="coerce")`).
* `drop_duplicates(subset="date")` (keep first) is `dedupByDate`;
  `sort_values("date")` (with `NaT` sorted last) is `sortByDate`.  After the
  dedup the sort keys are pairwise distinct, so the stable insertion sort
  used here produces the same list as pandas' (unstable) quicksort.
* Exceptions are `Except (List Char) _` values; the message classifier of
  `_get_kline_tushare` (substring search over the lowered message) is
  `isThrottleError`.
* The retry loop of `_get_kline_tushare` is `tushareLoop`, indexed by the
  remaining loop iterations (fuel), and additionally returns the number of
  calls made to the underlying client.
-/

/-- One row of the canonical kline frame: columns
`date, open, close, high, low, volume` (the `open` column is named `opn`
because `open` is a Lean keyword). `date` is `none` for a missing (`NaT`)
date; numeric cells are `none` for `NaN`. -/
structure Row where
  date : Option ℕ
  opn : Option ℚ
  close : Option ℚ
  high : Option ℚ
  low : Option ℚ
  volume : Option ℚ
deriving DecidableEq, Repr

/-- Comparison used by `sort_values("date")`: ordinary `≤` on present dates,
with missing dates (`NaT`) sorted last (`na_position="last"`). -/
def dateLeB : Option ℕ → Option ℕ → Bool
  | none, none => true
  | none, some _ => false
  | some _, none => true
  | some x, some y => decide (x ≤ y)

/-- Row ordering by the `date` column. -/
def rowLE (a b : Row) : Prop := dateLeB a.date b.date = true

instance : DecidableRel rowLE := fun a b => inferInstanceAs (Decidable (_ = true))

instance : IsTotal Row rowLE :=
  ⟨fun a b => by
    unfold rowLE
    cases a.date <;> cases b.date <;> simp [dateLeB] <;> omega⟩

instance : IsTrans Row rowLE :=
  ⟨fun a b c h1 h2 => by
    unfold rowLE at h1 h2 ⊢
    generalize a.date = da at h1 ⊢
    generalize b.date = db at h1 h2
    generalize c.date = dc at h2 ⊢
    cases da <;> cases db <;> cases dc <;> simp_all [dateLeB] <;> omega⟩

/-- `df.sort_values("date")`. -/
def sortByDate (l : List Row) : List Row := List.insertionSort rowLE l

/-- Helper for `dedupByDate`: drop every row whose date was already seen. -/
def dedupAux (seen : List (Option ℕ)) : List Row → List Row
  | [] => []
  | r :: rs =>
    if r.date ∈ seen then dedupAux seen rs
    else r :: dedupAux (r.date :: seen) rs

/-- `df.drop_duplicates(subset="date")` with pandas' default `keep="first"`:
for every date value, the first row carrying it is retained, in order. -/
def dedupByDate (df : List Row) : List Row := dedupAux [] df

/-- Is the row's date strictly in the future?  (`df["date"] >
pd.Timestamp.today()`; a `NaT` comparison is `False` in pandas.) -/
def isFutureDate (today : ℕ) (r : Row) : Bool :=
  match r.date with
  | some d => decide (today < d)
  | none => false

/-- `validate` from `fetch_kline.py`: an empty frame is returned unchanged;
otherwise dedup on the date column (keep first), sort ascending by date,
then fail on any missing date, then on any future date. -/
def validate (today : ℕ) (df : List Row) : Except (List Char) (List Row) :=
  match df with
  | [] => .ok []
  | _ =>
    let d := sortByDate (dedupByDate df)
    if d.any (fun r => r.date.isNone) then .error "存在缺失日期！".data
    else if d.any (fun r => isFutureDate today r) then
      .error "数据包含未来日期，可能抓取错误！".data
    else .ok d

/-- The columns of every output CSV. -/
def header : List (List Char) :=
  ["date".data, "open".data, "close".data, "high".data, "low".data, "volume".data]

/-- `fetch_one`, given the frame produced by `_get_kline`: an empty frame is
replaced by the header-only empty frame, the result is validated and written
to `<code>.csv`.  Returns the success flag together with the written file
(`none` when nothing was written because an exception was caught). -/
def fetch_one (today : ℕ) (df : List Row) :
    Bool × Option (List (List Char) × List Row) :=
  let df1 := match df with
    | [] => ([] : List Row)
    | l => l
  match validate today df1 with
  | .ok v => (true, some (header, v))
  | .error _ => (false, none)

/-- The worker-pool part of `main`: one `fetch_one` task per code, outcomes
keyed by code.  (`as_completed` yields them in completion order; only
the multiset of keyed outcomes is specified, so submission order is used.) -/
def runPool (today : ℕ) (client : List Char → List Row)
    (codes : List (List Char)) : List (List Char × Bool) :=
  codes.map (fun c => (c, (fetch_one today (client c)).1))

/-- The `ValueError` message raised by `main` when `TUSHARE_TOKEN` is unset. -/
def tokenErrorMsg : List Char :=
  "请先设置环境变量 TUSHARE_TOKEN，例如：set TUSHARE_TOKEN=你的token".data

/-- `main` specialised to the tushare datasource: if the token is missing, a
`ValueError` aborts the run before any fetch is submitted; otherwise the
pool runs over all codes.  The second component counts the `fetch_one`
tasks started. -/
def mainTushare (token : Option (List Char)) (today : ℕ)
    (client : List Char → List Row) (codes : List (List Char)) :
    Except (List Char) (List (List Char × Bool)) × ℕ :=
  match token with
  | none => (.error tokenErrorMsg, 0)
  | some _ => (.ok (runPool today client codes), codes.length)

/-- Substring test on character lists (Python's `keyword in error_msg`). -/
def substrOf (needle : List Char) : List Char → Bool
  | [] => needle.isEmpty
  | c :: t => needle.isPrefixOf (c :: t) || substrOf needle t

/-- `str.lower()` on an embedded Python string. -/
def lowerStr (s : List Char) : List Char := s.map Char.toLower

/-- The throttle/ban signature keywords of `_get_kline_tushare`. -/
def throttleKeywords : List (List Char) :=
  ["limit".data, "频率".data, "rate".data, "too many".data, "频繁".data, "限速".data]

/-- Classifier of `_get_kline_tushare`: is the (lowered) exception message a
rate-limit/throttle signature? -/
def isThrottleError (e : List Char) : Bool :=
  throttleKeywords.any (fun k => substrOf k (lowerStr e))

/-- `max_retries` of `_get_kline_tushare`. -/
def maxRetries : ℕ := 10

/-- `retry_delay` (seconds) of `_get_kline_tushare`. -/
def retryDelay : ℕ := 5

/-- How the `for attempt in range(max_retries)` loop of `_get_kline_tushare`
ended. -/
inductive TuOutcome where
  /-- `break` after a successful `ts.pro_bar` call returning `df`. -/
  | broke (df : List Row)
  /-- `return pd.DataFrame()` from inside the loop (non-throttle error, or
  throttle error on the final attempt). -/
  | earlyEmpty
  /-- the loop ran out of iterations without a `break` (`df is None`). -/
  | exhausted
deriving DecidableEq, Repr

/-- The retry loop of `_get_kline_tushare`.  `fetch n` is the result of the
`ts.pro_bar` call made on attempt `n` (0-based); `fuel` is the number of
loop iterations left (`get_kline_tushare` starts it at `maxRetries`).
Returns the loop outcome and the number of client calls made. -/
def tushareLoop (fetch : ℕ → Except (List Char) (List Row)) :
    ℕ → ℕ → TuOutcome × ℕ
  | _, 0 => (.exhausted, 0)
  | attempt, fuel + 1 =>
    match fetch attempt with
    | .ok df => (.broke df, 1)
    | .error e =>
      if isThrottleError e then
        if attempt < maxRetries - 1 then
          let r := tushareLoop fetch (attempt + 1) fuel
          (r.1, r.2 + 1)
        else (.earlyEmpty, 1)
      else (.earlyEmpty, 1)

/-- Post-processing of a successfully fetched frame: empty frames are
returned empty, otherwise rename/select the canonical columns (identity in
this embedding, rows are already canonical) and sort ascending by date. -/
def postProcess (df : List Row) : List Row :=
  match df with
  | [] => []
  | l => sortByDate l

/-- `_get_kline_tushare`, abstracted over the per-attempt client behaviour.
Returns the produced frame together with the number of client calls. -/
def get_kline_tushare (fetch : ℕ → Except (List Char) (List Row)) :
    List Row × ℕ :=
  let r := tushareLoop fetch 0 maxRetries
  match r.1 with
  | .broke df => (postProcess df, r.2)
  | .earlyEmpty => ([], r.2)
  | .exhausted => ([], r.2)

/-- `_get_kline_akshare`, abstracted over the single `ak.stock_zh_a_hist`
call: any exception yields an empty frame, as do a `None` or empty result;
otherwise the canonical columns are selected and sorted by date. -/
def get_kline_akshare (res : Except (List Char) (Option (List Row))) :
    List Row :=
  match res with
  | .error _ => []
  | .ok none => []
  | .ok (some df) =>
    match df with
    | [] => []
    | l => sortByDate l

/-- `str(code).zfill(n)`: left-pad with `'0'` up to length `n`. -/
def zfill (n : ℕ) (s : List Char) : List Char :=
  if n ≤ s.length then s else List.replicate (n - s.length) '0' ++ s

/-- `_to_ts_code`: map a 6-digit code to its exchange-qualified form by
numeric prefix. -/
def to_ts_code (code : List Char) : List Char :=
  let c := zfill 6 code
  if "60".data.isPrefixOf c || "68".data.isPrefixOf c || "9".data.isPrefixOf c then
    c ++ ".SH".data
  else if "4".data.isPrefixOf c || "8".data.isPrefixOf c then
    c ++ ".BJ".data
  else c ++ ".SZ".data

/-- Modelled from the spec: the source has no RateLimiter component (only
its role is described in §4.1); state `{window start time, request count in
window, last request time}` over rational wall-clock seconds. -/
structure RLState where
  windowStart : ℚ
  count : ℕ
  lastReq : ℚ
deriving DecidableEq, Repr

/-- Modelled from the spec: the minimum inter-request interval,
`60 / max-per-minute` seconds. -/
def rlInterval (maxPerMin : ℕ) : ℚ := 60 / maxPerMin

/-- Modelled from the spec: `acquire()` of the RateLimiter (§4.1), as a
function of the current state and the wall-clock instant `now` at which the
call starts.  Steps: (1) reset the window if ≥ 60 s elapsed; (2) if the
window count is full, sleep until the window boundary plus a 1 s safety
margin and reset the window; (3) enforce the minimum inter-request
interval; (4) record the request.  Returns the new state and the instant
at which `acquire` returns. -/
def acquire (maxPerMin : ℕ) (s : RLState) (now : ℚ) : RLState × ℚ :=
  let ws := if s.windowStart + 60 ≤ now then now else s.windowStart
  let cnt := if s.windowStart + 60 ≤ now then 0 else s.count
  let t2 := if maxPerMin ≤ cnt then max now (ws + 61) else now
  let ws2 := if maxPerMin ≤ cnt then max now (ws + 61) else ws
  let cnt2 := if maxPerMin ≤ cnt then 0 else cnt
  let t3 := max t2 (s.lastReq + rlInterval maxPerMin)
  (⟨ws2, cnt2 + 1, t3⟩, t3)

/-- Modelled from the spec: a freshly created limiter at time 0 — empty
window, and no prior request (`lastReq` one interval in the past, so the
first `acquire` is not delayed). -/
def rlInit (maxPerMin : ℕ) : RLState := ⟨0, 0, -(rlInterval maxPerMin)⟩

/-- Modelled from the spec: `n` back-to-back `acquire` calls starting at
time 0 — each call is issued the instant the previous one returns.
`(acqRun m n).2` is the instant the `n`-th call returns (time 0 for `n = 0`,
before any call). -/
def acqRun (maxPerMin : ℕ) : ℕ → RLState × ℚ
  | 0 => (rlInit maxPerMin, 0)
  | n + 1 => acquire maxPerMin (acqRun maxPerMin n).1 (acqRun maxPerMin n).2

/-- The instant at which the `n`-th back-to-back `acquire` call completes. -/
def acqTime (maxPerMin : ℕ) (n : ℕ) : ℚ := (acqRun maxPerMin n).2

/-- Concrete frame with a duplicate date (date 2 occurs twice). -/
def dfDup : List Row :=
  [⟨some 2, none, none, none, none, none⟩,
   ⟨some 1, none, none, none, none, none⟩,
   ⟨some 2, some 7, none, none, none, none⟩]

/-- What `validate` returns on `dfDup`. -/
def outDup : List Row :=
  [⟨some 1, none, none, none, none, none⟩,
   ⟨some 2, none, none, none, none, none⟩]

/-- Row dated after "today" (today = 10 in the witness). -/
def futureRow : Row := ⟨some 20, none, none, none, none, none⟩

/-- A client stub that raises a throttle-classified error on every call. -/
def alwaysThrottleFetch : ℕ → Except (List Char) (List Row) :=
  fun _ => .error "rate limit".data

/-- A client stub that fails once with a transient error, then succeeds. -/
def transientThenOkFetch : ℕ → Except (List Char) (List Row) :=
  fun n =>
    match n with
    | 0 => .error "boom".data
    | _ + 1 => .ok [⟨some 1, some 1, some 1, some 1, some 1, some 1⟩]

/-- A row with an unexceptional date (valid for today = 10). -/
def goodRow : Row := ⟨some 5, none, none, none, none, none⟩

/-- Ten distinct symbols for the pool scenario. -/
def codes10 : List (List Char) :=
  ["000001".data, "000002".data, "000003".data, "000004".data, "000005".data,
   "000006".data, "000007".data, "600001".data, "600002".data, "600003".data]

/-- A per-symbol client for which three symbols always fail (future-dated
series, rejected by `validate`) and the other seven always succeed. -/
def client10 : List Char → List Row :=
  fun c =>
    if c = "000001".data ∨ c = "000002".data ∨ c = "000003".data then [futureRow]
    else [goodRow]

theorem mem_dedupAux : ∀ (l : List Row) (seen : List (Option ℕ)) (r : Row),
    r ∈ dedupAux seen l → r ∈ l ∧ r.date ∉ seen := by
  intro l
  induction l with
  | nil => intro seen r h; simp [dedupAux] at h
  | cons x xs ih =>
    intro seen r h
    simp only [dedupAux] at h
    by_cases hx : x.date ∈ seen
    · rw [if_pos hx] at h
      obtain ⟨h1, h2⟩ := ih seen r h
      exact ⟨List.mem_cons_of_mem _ h1, h2⟩
    · rw [if_neg hx] at h
      rcases List.mem_cons.mp h with rfl | h
      · exact ⟨List.mem_cons_self _ _, hx⟩
      · obtain ⟨h1, h2⟩ := ih _ r h
        exact ⟨List.mem_cons_of_mem _ h1, fun hc => h2 (List.mem_cons_of_mem _ hc)⟩

theorem dates_nodup_dedupAux : ∀ (l : List Row) (seen : List (Option ℕ)),
    ((dedupAux seen l).map Row.date).Nodup := by
  intro l
  induction l with
  | nil => intro seen; simp [dedupAux]
  | cons x xs ih =>
    intro seen
    simp only [dedupAux]
    by_cases hx : x.date ∈ seen
    · rw [if_pos hx]; exact ih seen
    · rw [if_neg hx]
      simp only [List.map_cons, List.nodup_cons]
      refine ⟨fun hc => ?_, ih _⟩
      obtain ⟨r, hr, hdr⟩ := List.mem_map.mp hc
      exact (mem_dedupAux xs _ r hr).2 (by rw [hdr]; exact List.mem_cons_self _ _)

theorem find?_dedupAux : ∀ (l : List Row) (seen : List (Option ℕ)) (r : Row),
    r ∈ dedupAux seen l → l.find? (fun x => x.date == r.date) = some r := by
  intro l
  induction l with
  | nil => intro seen r h; simp [dedupAux] at h
  | cons x xs ih =>
    intro seen r h
    simp only [dedupAux] at h
    by_cases hx : x.date ∈ seen
    · rw [if_pos hx] at h
      have hne : x.date ≠ r.date := by
        intro he; exact (mem_dedupAux xs seen r h).2 (he ▸ hx)
      rw [List.find?_cons_of_neg _ (by simpa using hne)]
      exact ih seen r h
    · rw [if_neg hx] at h
      rcases List.mem_cons.mp h with rfl | h
      · rw [List.find?_cons_of_pos _ (by simp)]
      · have hne : x.date ≠ r.date := by
          intro he
          exact (mem_dedupAux xs _ r h).2 (by rw [← he]; exact List.mem_cons_self _ _)
        rw [List.find?_cons_of_neg _ (by simpa using hne)]
        exact ih _ r h

theorem mem_dates_dedupAux : ∀ (l : List Row) (seen : List (Option ℕ)) (d : Option ℕ),
    d ∈ (dedupAux seen l).map Row.date ↔ (d ∈ l.map Row.date ∧ d ∉ seen) := by
  intro l
  induction l with
  | nil => intro seen d; simp [dedupAux]
  | cons x xs ih =>
    intro seen d
    simp only [dedupAux]
    by_cases hx : x.date ∈ seen
    · rw [if_pos hx]
      rw [ih]
      simp only [List.map_cons, List.mem_cons]
      constructor
      · rintro ⟨h1, h2⟩; exact ⟨Or.inr h1, h2⟩
      · rintro ⟨h1 | h1, h2⟩
        · exact absurd (h1 ▸ hx) h2
        · exact ⟨h1, h2⟩
    · rw [if_neg hx]
      simp only [List.map_cons, List.mem_cons, ih]
      constructor
      · rintro (rfl | ⟨h1, h2⟩)
        · exact ⟨Or.inl rfl, hx⟩
        · exact ⟨Or.inr h1, fun hc => h2 (Or.inr hc)⟩
      · rintro ⟨rfl | h1, h2⟩
        · exact Or.inl rfl
        · by_cases hdx : d = x.date
          · exact Or.inl hdx
          · exact Or.inr ⟨h1, fun hc => hc.elim hdx h2⟩

theorem sortByDate_perm (l : List Row) : List.Perm (sortByDate l) l :=
  List.perm_insertionSort rowLE l

theorem mem_sortByDate {r : Row} {l : List Row} : r ∈ sortByDate l ↔ r ∈ l :=
  (sortByDate_perm l).mem_iff

theorem sorted_sortByDate (l : List Row) : (sortByDate l).Sorted rowLE :=
  List.sorted_insertionSort rowLE l

theorem validate_cons (today : ℕ) (x : Row) (xs : List Row) :
    validate today (x :: xs) =
      if (sortByDate (dedupByDate (x :: xs))).any (fun r => r.date.isNone) then
        .error "存在缺失日期！".data
      else if (sortByDate (dedupByDate (x :: xs))).any (fun r => isFutureDate today r) then
        .error "数据包含未来日期，可能抓取错误！".data
      else .ok (sortByDate (dedupByDate (x :: xs))) := rfl

theorem validate_cons_ok {today : ℕ} {x : Row} {xs out : List Row}
    (hok : validate today (x :: xs) = .ok out) :
    out = sortByDate (dedupByDate (x :: xs)) := by
  rw [validate_cons] at hok
  split_ifs at hok with h1 h2
  all_goals first
    | exact Except.noConfusion hok
    | (injection hok with h; exact h.symm)

/-- **C5**: for every series containing duplicate dates, a series returned
by validation has exactly one record per date (its date values are exactly
those of the input, each occurring once), each retained record is the first
occurrence of its date in the input, and the date column is non-decreasing. -/
theorem claim_c5 (today : ℕ) (df out : List Row)
    (hdup : ¬ (df.map Row.date).Nodup)
    (hok : validate today df = .ok out) :
    ((out.map Row.date).Nodup) ∧
    (∀ d, d ∈ out.map Row.date ↔ d ∈ df.map Row.date) ∧
    (∀ r ∈ out, df.find? (fun x => x.date == r.date) = some r) ∧
    out.Sorted rowLE := by
  cases df with
  | nil => simp at hdup
  | cons x xs =>
    have hout := validate_cons_ok hok
    subst hout
    refine ⟨?_, ?_, ?_, sorted_sortByDate _⟩
    · exact (List.Perm.nodup_iff ((sortByDate_perm _).map Row.date)).mpr
        (dates_nodup_dedupAux _ _)
    · intro d
      rw [List.Perm.mem_iff ((sortByDate_perm _).map Row.date)]
      simp only [dedupByDate]
      rw [mem_dates_dedupAux]
      simp
    · intro r hr
      exact find?_dedupAux _ [] r (mem_sortByDate.mp hr)

theorem claim_c5_witness :
    (¬ ((dfDup.map Row.date).Nodup)) ∧ ((outDup.map Row.date).Nodup) ∧
      outDup.Sorted rowLE :=
  ⟨by decide, (claim_c5 5 dfDup outDup (by decide) rfl).1,
    (claim_c5 5 dfDup outDup (by decide) rfl).2.2.2⟩

/-- **C6**: for every series containing a date strictly greater than the
current date, validation fails with a `ValueError`, `fetch_one` catches it
(no retry exists in `fetch_one`) and records the symbol as failed, writing
no file. -/
theorem claim_c6 (today : ℕ) (df : List Row) (r : Row) (d : ℕ)
    (hr : r ∈ df) (hd : r.date = some d) (hfut : today < d) :
    (∃ msg, validate today df = .error msg) ∧
    fetch_one today df = (false, none) := by
  cases df with
  | nil => simp at hr
  | cons x xs =>
    have herr : ∃ msg, validate today (x :: xs) = .error msg := by
      rw [validate_cons]
      split_ifs with h1 h2
      · exact ⟨_, rfl⟩
      · exact ⟨_, rfl⟩
      · exfalso
        apply h2
        rw [List.any_eq_true]
        have hmem : (some d) ∈ ((x :: xs).map Row.date) :=
          List.mem_map.mpr ⟨r, hr, hd⟩
        have hmem2 : (some d) ∈ ((sortByDate (dedupByDate (x :: xs))).map Row.date) := by
          rw [List.Perm.mem_iff ((sortByDate_perm _).map Row.date)]
          simp only [dedupByDate]
          rw [mem_dates_dedupAux]
          exact ⟨hmem, by simp⟩
        obtain ⟨r', hr', hd'⟩ := List.mem_map.mp hmem2
        exact ⟨r', hr', by simp [isFutureDate, hd', hfut]⟩
    refine ⟨herr, ?_⟩
    obtain ⟨msg, hmsg⟩ := herr
    have hred : fetch_one today (x :: xs) =
        match validate today (x :: xs) with
        | .ok v => (true, some (header, v))
        | .error _ => (false, none) := rfl
    rw [hred, hmsg]

theorem claim_c6_witness : fetch_one 10 [futureRow] = (false, none) :=
  (claim_c6 10 [futureRow] futureRow 20 (by simp) rfl (by decide)).2

/-- **C7**: a verified-empty series still produces a written output file
consisting of the columns `date, open, close, high, low, volume` and zero
data rows, and `fetch_one` reports success for it. -/
theorem claim_c7 : ∀ today : ℕ,
    fetch_one today [] = (true, some (header, [])) ∧
    header = ["date".data, "open".data, "close".data, "high".data,
      "low".data, "volume".data] :=
  fun _ => ⟨rfl, rfl⟩

theorem tushareLoop_succ_error (fetch : ℕ → Except (List Char) (List Row))
    (attempt fuel : ℕ) (e : List Char) (he : fetch attempt = .error e) :
    tushareLoop fetch attempt (fuel + 1) =
      if isThrottleError e then
        if attempt < maxRetries - 1 then
          ((tushareLoop fetch (attempt + 1) fuel).1,
           (tushareLoop fetch (attempt + 1) fuel).2 + 1)
        else (.earlyEmpty, 1)
      else (.earlyEmpty, 1) := by
  simp only [tushareLoop, he]

theorem tushareLoop_all_throttle (fetch : ℕ → Except (List Char) (List Row))
    (h : ∀ n, ∃ e, fetch n = .error e ∧ isThrottleError e = true) :
    ∀ fuel attempt, attempt + fuel = maxRetries → 1 ≤ fuel →
      tushareLoop fetch attempt fuel = (.earlyEmpty, fuel) := by
  intro fuel
  induction fuel with
  | zero => intro attempt h1 h2; omega
  | succ f ih =>
    intro attempt hsum hge
    obtain ⟨e, he, ht⟩ := h attempt
    cases f with
    | zero =>
      have ha : attempt = 9 := by simp [maxRetries] at hsum; omega
      subst ha
      simp [tushareLoop, he, ht, maxRetries]
    | succ f' =>
      have hlt : attempt < maxRetries - 1 := by simp [maxRetries] at hsum ⊢; omega
      rw [tushareLoop_succ_error fetch attempt (f' + 1) e he, if_pos ht,
        if_pos hlt, ih (attempt + 1) (by omega) (by omega)]

/-- **C1** (amended): if every client call fails with a throttle-classified
error, `_get_kline_tushare` makes exactly `maxRetries = 10` calls (not 3)
and then returns an empty frame — there is no distinguished `Failed`
state. -/
theorem claim_c1 (fetch : ℕ → Except (List Char) (List Row))
    (h : ∀ n, ∃ e, fetch n = .error e ∧ isThrottleError e = true) :
    get_kline_tushare fetch = ([], 10) := by
  have hl := tushareLoop_all_throttle fetch h maxRetries 0 (by omega)
    (by norm_num [maxRetries])
  simp only [maxRetries] at hl
  simp [get_kline_tushare, maxRetries, hl]

/-- **C1** (counterexample): on a client stub that always raises a
throttle-classified error, `_get_kline_tushare` makes 10 client calls,
exceeding the claimed attempt cap of 3. -/
theorem claim_c1_counterexample :
    (get_kline_tushare alwaysThrottleFetch).2 = 10 ∧
    ¬ ((get_kline_tushare alwaysThrottleFetch).2 ≤ 3) := by decide

theorem claim_c1_witness : get_kline_tushare alwaysThrottleFetch = ([], 10) :=
  claim_c1 alwaysThrottleFetch (fun _ => ⟨"rate limit".data, rfl, by decide⟩)

/-- **C2** (amended): a transient (non-throttle-classified) error on the
first client call is not retried at all: `_get_kline_tushare` makes exactly
one client call, sleeps no backoff, and returns an empty frame — the
second call's series is never requested. -/
theorem claim_c2 (fetch : ℕ → Except (List Char) (List Row)) (e : List Char)
    (h0 : fetch 0 = .error e) (hnt : isThrottleError e = false) :
    get_kline_tushare fetch = ([], 1) := by
  have hl : tushareLoop fetch 0 maxRetries = (.earlyEmpty, 1) := by
    simp [maxRetries, tushareLoop, h0, hnt]
  simp [get_kline_tushare, hl]

/-- **C2** (counterexample): on a stub that fails once with a transient
error and then succeeds, `_get_kline_tushare` makes only 1 client call
(not 2) and returns an empty frame (not the second call's series). -/
theorem claim_c2_counterexample :
    get_kline_tushare transientThenOkFetch = ([], 1) ∧
    (get_kline_tushare transientThenOkFetch).2 ≠ 2 := by decide

theorem claim_c2_witness : get_kline_tushare transientThenOkFetch = ([], 1) :=
  claim_c2 transientThenOkFetch "boom".data rfl (by decide)

theorem tushareLoop_all_error_not_broke (fetch : ℕ → Except (List Char) (List Row))
    (h : ∀ n, ∃ e, fetch n = .error e) :
    ∀ fuel attempt df, (tushareLoop fetch attempt fuel).1 ≠ .broke df := by
  intro fuel
  induction fuel with
  | zero => intro attempt df; simp [tushareLoop]
  | succ f ih =>
    intro attempt df
    obtain ⟨e, he⟩ := h attempt
    simp only [tushareLoop, he]
    split_ifs with h1 h2
    · simpa using ih (attempt + 1) df
    · simp
    · simp

/-- **C10**: the provider wrappers are total — every exception from the
underlying data source (on every attempt, for tushare) yields an empty
frame, just like a `None` or verified-empty provider result, so the failure
is indistinguishable at the interface from a symbol with no data. -/
theorem claim_c10 :
    (∀ fetch : ℕ → Except (List Char) (List Row),
      (∀ n, ∃ e, fetch n = .error e) → (get_kline_tushare fetch).1 = []) ∧
    (∀ e, get_kline_akshare (.error e) = []) ∧
    (get_kline_akshare (.ok none) = []) ∧
    (get_kline_akshare (.ok (some [])) = []) ∧
    (∀ fetch : ℕ → Except (List Char) (List Row),
      fetch 0 = .ok [] → (get_kline_tushare fetch).1 = []) := by
  refine ⟨?_, fun e => rfl, rfl, rfl, ?_⟩
  · intro fetch h
    rcases ho : (tushareLoop fetch 0 maxRetries).1 with df | _ | _
    · exact absurd ho (tushareLoop_all_error_not_broke fetch h maxRetries 0 df)
    · simp [get_kline_tushare, ho]
    · simp [get_kline_tushare, ho]
  · intro fetch h0
    have hl : tushareLoop fetch 0 maxRetries = (.broke [], 1) := by
      simp [maxRetries, tushareLoop, h0]
    simp [get_kline_tushare, hl, postProcess]

theorem claim_c10_witness :
    (get_kline_tushare (fun _ => .error "x".data)).1 = [] :=
  claim_c10.1 (fun _ => .error "x".data) (fun _ => ⟨"x".data, rfl⟩)

theorem length_filter_map_eq {α β : Type} (f : α → β) (p : β → Bool)
    (l : List α) :
    ((l.map f).filter p).length = (l.filter (fun x => p (f x))).length := by
  induction l with
  | nil => rfl
  | cons x xs ih =>
    simp only [List.map_cons, List.filter_cons]
    cases h : p (f x) <;> simp [h, ih]

theorem length_filter_add_length_filter_not {α : Type} (p : α → Bool)
    (l : List α) :
    (l.filter p).length + (l.filter (fun x => !(p x))).length = l.length := by
  induction l with
  | nil => rfl
  | cons x xs ih =>
    cases h : p x <;> simp [List.filter_cons, h] <;> omega

/-- **C4**: over 10 distinct symbols of which exactly 7 succeed in
`fetch_one` and 3 fail, the pool produces exactly 7 success outcomes and 3
failure outcomes, and the outcome keys are exactly the 10 symbols, each
exactly once. -/
theorem claim_c4 (today : ℕ) (client : List Char → List Row)
    (codes : List (List Char)) (hnd : codes.Nodup) (hlen : codes.length = 10)
    (h7 : (codes.filter (fun c => (fetch_one today (client c)).1)).length = 7) :
    ((runPool today client codes).filter (fun p => p.2)).length = 7 ∧
    ((runPool today client codes).filter (fun p => !p.2)).length = 3 ∧
    (runPool today client codes).map Prod.fst = codes ∧
    ((runPool today client codes).map Prod.fst).Nodup := by
  have hmapfst : (runPool today client codes).map Prod.fst = codes := by
    simp [runPool, List.map_map, Function.comp_def]
  have h1 : ((runPool today client codes).filter (fun p => p.2)).length = 7 := by
    rw [runPool, length_filter_map_eq]
    simpa using h7
  have htot := length_filter_add_length_filter_not
    (fun p : List Char × Bool => p.2) (runPool today client codes)
  have hlen10 : (runPool today client codes).length = 10 := by
    simp [runPool, hlen]
  refine ⟨h1, by omega, hmapfst, by rw [hmapfst]; exact hnd⟩

theorem claim_c4_witness :
    ((runPool 10 client10 codes10).filter (fun p => p.2)).length = 7 ∧
    ((runPool 10 client10 codes10).filter (fun p => !p.2)).length = 3 :=
  ⟨(claim_c4 10 client10 codes10 (by decide) (by decide) (by decide)).1,
   (claim_c4 10 client10 codes10 (by decide) (by decide) (by decide)).2.1⟩

/-- **C9**: per-symbol isolation and configuration aborts — (1) the pool
records one outcome per symbol, in order, whatever the per-symbol results
are; (2) a symbol whose series fails validation is recorded as that
symbol's failure (`fetch_one` returns `false`, nothing is raised); (3) the
outcomes recorded for a symbol depend only on that symbol's own client
behaviour, not on any sibling's; (4) a missing tushare token aborts the
whole run with a `ValueError` before any fetch task starts. -/
theorem claim_c9 (today : ℕ) (client : List Char → List Row)
    (codes : List (List Char)) :
    ((runPool today client codes).map Prod.fst = codes) ∧
    (∀ c ∈ codes, ∀ msg, validate today (client c) = .error msg →
      (c, false) ∈ runPool today client codes) ∧
    (∀ f g : List Char → List Row, ∀ c : List Char, f c = g c →
      (runPool today f codes).filter (fun p => p.1 == c) =
      (runPool today g codes).filter (fun p => p.1 == c)) ∧
    (mainTushare none today client codes = (.error tokenErrorMsg, 0)) := by
  refine ⟨by simp [runPool, List.map_map, Function.comp_def], ?_, ?_, rfl⟩
  · intro c hc msg hmsg
    have hfo : (fetch_one today (client c)).1 = false := by
      rcases hcc : client c with _ | ⟨x, xs⟩
      · rw [hcc] at hmsg
        exact Except.noConfusion hmsg
      · rw [hcc] at hmsg
        have hred : fetch_one today (x :: xs) =
            match validate today (x :: xs) with
            | .ok v => (true, some (header, v))
            | .error _ => (false, none) := rfl
        rw [hred, hmsg]
    exact List.mem_map.mpr ⟨c, hc, by rw [hfo]⟩
  · intro f g c hfg
    induction codes with
    | nil => rfl
    | cons x xs ih =>
      have e1 : runPool today f (x :: xs) =
          (x, (fetch_one today (f x)).1) :: runPool today f xs := rfl
      have e2 : runPool today g (x :: xs) =
          (x, (fetch_one today (g x)).1) :: runPool today g xs := rfl
      rw [e1, e2, List.filter_cons, List.filter_cons]
      by_cases hxc : x = c
      · subst hxc
        simp only [beq_self_eq_true, if_true]
        rw [hfg, ih]
      · have hb : (x == c) = false := beq_eq_false_iff_ne.mpr hxc
        simp only [hb, Bool.false_eq_true, if_false]
        exact ih

theorem claim_c9_witness :
    ("000001".data, false) ∈ runPool 10 client10 codes10 :=
  (claim_c9 10 client10 codes10).2.1 "000001".data (by decide)
    "数据包含未来日期，可能抓取错误！".data rfl

theorem to_ts_code_eq_aux (c0 c1 : Char) (rest : List Char)
    (h6 : 6 ≤ rest.length + 2) :
    to_ts_code (c0 :: c1 :: rest) =
      if ('6' = c0 ∧ '0' = c1) ∨ ('6' = c0 ∧ '8' = c1) ∨ '9' = c0 then
        (c0 :: c1 :: rest) ++ ".SH".data
      else if '4' = c0 ∨ '8' = c0 then (c0 :: c1 :: rest) ++ ".BJ".data
      else (c0 :: c1 :: rest) ++ ".SZ".data := by
  have hz : zfill 6 (c0 :: c1 :: rest) = c0 :: c1 :: rest := by
    simp only [zfill, List.length_cons]
    rw [if_pos (by omega)]
  have d60 : "60".data = ['6', '0'] := rfl
  have d68 : "68".data = ['6', '8'] := rfl
  have d9 : "9".data = ['9'] := rfl
  have d4 : "4".data = ['4'] := rfl
  have d8 : "8".data = ['8'] := rfl
  have p2 : ∀ a b : Char, [a, b].isPrefixOf (c0 :: c1 :: rest) = (a == c0 && (b == c1)) := by
    intro a b
    simp [List.isPrefixOf]
  have p1 : ∀ a : Char, [a].isPrefixOf (c0 :: c1 :: rest) = (a == c0) := by
    intro a
    simp [List.isPrefixOf]
  simp only [to_ts_code, hz, d60, d68, d9, d4, d8, p2, p1, Bool.or_eq_true,
    Bool.and_eq_true, beq_iff_eq]
  simp only [or_assoc]

/-- **C8**: every 6-character numeric symbol maps by numeric prefix —
`60`, `68`, or `9` to `.SH`; `4` or `8` to `.BJ`; every other prefix to
`.SZ`. -/
theorem claim_c8 (code : List Char) (hlen : code.length = 6)
    (hdig : ∀ ch ∈ code, ch.isDigit = true) :
    ((code.take 2 = "60".data ∨ code.take 2 = "68".data ∨ code.take 1 = "9".data) →
      to_ts_code code = code ++ ".SH".data) ∧
    ((code.take 1 = "4".data ∨ code.take 1 = "8".data) →
      to_ts_code code = code ++ ".BJ".data) ∧
    ((¬(code.take 2 = "60".data ∨ code.take 2 = "68".data ∨ code.take 1 = "9".data) ∧
      ¬(code.take 1 = "4".data ∨ code.take 1 = "8".data)) →
      to_ts_code code = code ++ ".SZ".data) := by
  rcases code with _ | ⟨c0, code⟩
  · simp at hlen
  rcases code with _ | ⟨c1, rest⟩
  · simp at hlen
  have h6 : 6 ≤ rest.length + 2 := by
    simp only [List.length_cons] at hlen
    omega
  have heq := to_ts_code_eq_aux c0 c1 rest h6
  refine ⟨?_, ?_, ?_⟩
  · rintro (h | h | h)
    · have h' : [c0, c1] = ['6', '0'] := h
      simp only [List.cons.injEq, and_true] at h'
      obtain ⟨hc0, hc1⟩ := h'
      subst hc0
      subst hc1
      rw [heq, if_pos (Or.inl ⟨rfl, rfl⟩)]
    · have h' : [c0, c1] = ['6', '8'] := h
      simp only [List.cons.injEq, and_true] at h'
      obtain ⟨hc0, hc1⟩ := h'
      subst hc0
      subst hc1
      rw [heq, if_pos (Or.inr (Or.inl ⟨rfl, rfl⟩))]
    · have h' : [c0] = ['9'] := h
      simp only [List.cons.injEq, and_true] at h'
      subst h'
      rw [heq, if_pos (Or.inr (Or.inr rfl))]
  · rintro (h | h)
    · have h' : [c0] = ['4'] := h
      simp only [List.cons.injEq, and_true] at h'
      subst h'
      have hns : ¬ (('6' = '4' ∧ '0' = c1) ∨ ('6' = '4' ∧ '8' = c1) ∨ '9' = '4') := by
        rintro (⟨h1, _⟩ | ⟨h1, _⟩ | h1) <;> exact absurd h1 (by decide)
      rw [heq, if_neg hns, if_pos (Or.inl rfl)]
    · have h' : [c0] = ['8'] := h
      simp only [List.cons.injEq, and_true] at h'
      subst h'
      have hns : ¬ (('6' = '8' ∧ '0' = c1) ∨ ('6' = '8' ∧ '8' = c1) ∨ '9' = '8') := by
        rintro (⟨h1, _⟩ | ⟨h1, _⟩ | h1) <;> exact absurd h1 (by decide)
      rw [heq, if_neg hns, if_pos (Or.inr rfl)]
  · rintro ⟨hn1, hn2⟩
    have hnSH : ¬ (('6' = c0 ∧ '0' = c1) ∨ ('6' = c0 ∧ '8' = c1) ∨ '9' = c0) := by
      rintro (⟨h1, h2⟩ | ⟨h1, h2⟩ | h1)
      · exact hn1 (Or.inl (show [c0, c1] = ['6', '0'] by rw [← h1, ← h2]))
      · exact hn1 (Or.inr (Or.inl (show [c0, c1] = ['6', '8'] by rw [← h1, ← h2])))
      · exact hn1 (Or.inr (Or.inr (show [c0] = ['9'] by rw [← h1])))
    have hnBJ : ¬ ('4' = c0 ∨ '8' = c0) := by
      rintro (h1 | h1)
      · exact hn2 (Or.inl (show [c0] = ['4'] by rw [← h1]))
      · exact hn2 (Or.inr (show [c0] = ['8'] by rw [← h1]))
    rw [heq, if_neg hnSH, if_neg hnBJ]

theorem claim_c8_witness :
    to_ts_code "600000".data = "600000".data ++ ".SH".data :=
  (claim_c8 "600000".data (by decide) (by decide)).1 (by decide)

theorem acquire_ret_ge_lastReq (m : ℕ) (s : RLState) (now : ℚ) :
    s.lastReq + rlInterval m ≤ (acquire m s now).2 := by
  simp only [acquire]
  exact le_max_right _ _

theorem acquire_ret_ge_now (m : ℕ) (s : RLState) (now : ℚ) :
    now ≤ (acquire m s now).2 := by
  simp only [acquire]
  refine le_trans ?_ (le_max_left _ _)
  split_ifs <;> simp [le_max_left]

theorem acquire_lastReq (m : ℕ) (s : RLState) (now : ℚ) :
    (acquire m s now).1.lastReq = (acquire m s now).2 := rfl

theorem acqRun_lastReq (m : ℕ) (n : ℕ) (h : 1 ≤ n) :
    (acqRun m n).1.lastReq = acqTime m n := by
  cases n with
  | zero => omega
  | succ k => exact acquire_lastReq m (acqRun m k).1 (acqRun m k).2

theorem acqTime_step (m n : ℕ) (h : 1 ≤ n) :
    acqTime m n + rlInterval m ≤ acqTime m (n + 1) := by
  have h1 : (acqRun m n).1.lastReq + rlInterval m ≤ (acqRun m (n + 1)).2 :=
    acquire_ret_ge_lastReq m (acqRun m n).1 (acqRun m n).2
  rw [acqRun_lastReq m n h] at h1
  exact h1

theorem acqTime_one_nonneg (m : ℕ) : 0 ≤ acqTime m 1 := by
  have h := acquire_ret_ge_lastReq m (rlInit m) 0
  simpa [rlInit] using h

theorem acqTime_chain (m : ℕ) : ∀ i j : ℕ, 1 ≤ i → i ≤ j →
    acqTime m i + ((j - i : ℕ) : ℚ) * rlInterval m ≤ acqTime m j := by
  intro i j h1 hij
  induction j, hij using Nat.le_induction with
  | base => simp
  | succ j hij ih =>
    have hstep := acqTime_step m j (le_trans h1 hij)
    have hcast : ((j + 1 - i : ℕ) : ℚ) = ((j - i : ℕ) : ℚ) + 1 := by
      have he : j + 1 - i = (j - i) + 1 := by omega
      rw [he]
      push_cast
      ring
    rw [hcast]
    calc acqTime m i + (((j - i : ℕ) : ℚ) + 1) * rlInterval m
        = (acqTime m i + ((j - i : ℕ) : ℚ) * rlInterval m) + rlInterval m := by ring
      _ ≤ acqTime m j + rlInterval m := by linarith [ih]
      _ ≤ acqTime m (j + 1) := hstep

/-- **C3** (spec-modelled; the source contains no RateLimiter): with
max-per-minute = 40 and `N` back-to-back `acquire` calls starting at
time 0, (1) the `N`-th call completes no earlier than
`(N - 1) * (60 / 40)` seconds after the start — monotonic pacing; and (2)
no more than 40 of the calls complete within any rolling 60-second window
`[a, a + 60)`. -/
theorem claim_c3 :
    (∀ N : ℕ, 1 ≤ N → ((N - 1 : ℕ) : ℚ) * (60 / 40) ≤ acqTime 40 N) ∧
    (∀ a : ℚ, ∀ N : ℕ,
      ((Finset.Icc 1 N).filter
        (fun k => a ≤ acqTime 40 k ∧ acqTime 40 k < a + 60)).card ≤ 40) := by
  have hint : rlInterval 40 = 60 / 40 := by norm_num [rlInterval]
  constructor
  · intro N hN
    have hchain := acqTime_chain 40 1 N le_rfl hN
    have h1 := acqTime_one_nonneg 40
    rw [hint] at hchain
    linarith
  · intro a N
    set S := (Finset.Icc 1 N).filter
      (fun k => a ≤ acqTime 40 k ∧ acqTime 40 k < a + 60) with hS
    rcases S.eq_empty_or_nonempty with he | hne
    · simp [he]
    · have hm0S : S.min' hne ∈ S := S.min'_mem hne
      have hm0Icc : S.min' hne ∈ Finset.Icc 1 N := (Finset.mem_filter.mp hm0S).1
      have hm01 : 1 ≤ S.min' hne := (Finset.mem_Icc.mp hm0Icc).1
      have hm0a : a ≤ acqTime 40 (S.min' hne) := (Finset.mem_filter.mp hm0S).2.1
      have hsub : S ⊆ Finset.Ico (S.min' hne) (S.min' hne + 40) := by
        intro j hj
        have hjS := Finset.mem_filter.mp hj
        have hjm0 : S.min' hne ≤ j := S.min'_le j hj
        rw [Finset.mem_Ico]
        refine ⟨hjm0, ?_⟩
        by_contra hc
        push_neg at hc
        have hchain := acqTime_chain 40 (S.min' hne) j hm01 hjm0
        have h40 : (40 : ℚ) ≤ ((j - S.min' hne : ℕ) : ℚ) := by
          have hd : 40 ≤ j - S.min' hne := by omega
          exact_mod_cast hd
        have hpos : 0 ≤ rlInterval 40 := by norm_num [rlInterval]
        have hge : (40 : ℚ) * rlInterval 40 ≤
            ((j - S.min' hne : ℕ) : ℚ) * rlInterval 40 :=
          mul_le_mul_of_nonneg_right h40 hpos
        have h60 : (40 : ℚ) * rlInterval 40 = 60 := by norm_num [rlInterval]
        have hjtime : acqTime 40 j < a + 60 := hjS.2.2
        linarith
      calc S.card ≤ (Finset.Ico (S.min' hne) (S.min' hne + 40)).card :=
            Finset.card_le_card hsub
        _ = 40 := by simp

theorem claim_c3_witness :
    (1 ≤ 3 ∧ ((3 - 1 : ℕ) : ℚ) * (60 / 40) ≤ acqTime 40 3) ∧
    ((Finset.Icc 1 5).filter
      (fun k => (0 : ℚ) ≤ acqTime 40 k ∧ acqTime 40 k < 0 + 60)).card ≤ 40 :=
  ⟨⟨by norm_num, claim_c3.1 3 (by norm_num)⟩, claim_c3.2 0 5⟩
